import Mathlib

/-!
Verification of envoy's `source/common/common/key_value_store_base.cc` and of the
Kafka-mesh request processor specified in spec.md (its implementation is known here
only through its unit test `request_processor_unit_test.cc`).

Part 1 embeds the key/value store: the length-prefixed tokenizer `getToken`, the
file parser `parseContents`, the flush serialization, and the store operations
`addOrUpdate` / `remove` / `get`.

Part 2 models the request processor, its dispatch table and the two exemplar
command handlers from the spec.
-/

namespace Envoy.KeyValueStore

/-- ASCII whitespace, as accepted by absl string-to-integer conversion
(space, tab, newline, vertical tab, form feed, carriage return). -/
def isAsciiSpace (c : Char) : Bool :=
  c = ' ' || c = '\t' || c = '\n' || c = Char.ofNat 11 || c = Char.ofNat 12 || c = '\r'

/-- Numeric value of a decimal digit character. -/
def digitVal (c : Char) : Nat := c.toNat - '0'.toNat

/-- Value of a most-significant-first decimal digit string. -/
def digitsToNat (cs : List Char) : Nat := cs.foldl (fun acc c => acc * 10 + digitVal c) 0

/-- Model of `absl::SimpleAtoi` at type `uint64_t`: ASCII whitespace may surround the
number, a single leading plus sign is allowed, and the remainder must be a nonempty
run of decimal digits whose value fits in 64 bits. -/
def simpleAtoiU64 (s : List Char) : Option Nat :=
  let t := ((s.dropWhile isAsciiSpace).reverse.dropWhile isAsciiSpace).reverse
  let t2 := if t.head? = some '+' then t.tail else t
  if t2 ≠ [] ∧ t2.all Char.isDigit ∧ digitsToNat t2 < 2 ^ 64 then some (digitsToNat t2)
  else none

/-- `getToken` from key_value_store_base.cc: removes a length-prefixed token from the
contents. It finds the first newline, parses the characters before it as a decimal
length, and takes that many characters after the newline; on success it returns the
token and the remaining contents, otherwise the error message the source logs. -/
def getToken (contents : List Char) : Except String (List Char × List Char) :=
  let pre := contents.takeWhile (fun c => c ≠ '\n')
  if pre.length = contents.length then .error "Bad file: no newline"
  else
    match simpleAtoiU64 pre with
    | none => .error "Bad file: no length"
    | some length =>
      let rest := contents.drop (pre.length + 1)
      if rest.length < length then .error "Bad file: insufficient contents"
      else .ok (rest.take length, rest.drop length)

/-- The backing `absl::flat_hash_map<std::string, std::string>`, modelled as an
association list whose order is the (otherwise unspecified) iteration order. -/
abbrev Store := List (List Char × List Char)

/-- `store.find(key)` followed by the end-of-map check: the value mapped to the key,
if present. This is the body of `KeyValueStoreBase::get`. -/
def get : Store → List Char → Option (List Char)
  | [], _ => none
  | p :: rest, k => if p.1 = k then some p.2 else get rest k

/-- `store.emplace(key, value)`: inserts the pair only when the key is absent. -/
def storeEmplace (s : Store) (k v : List Char) : Store :=
  if (get s k).isSome then s else s ++ [(k, v)]

/-- `store.erase(key)`: removes any pair with the given key. -/
def storeErase (s : Store) (k : List Char) : Store :=
  s.filter (fun p => p.1 ≠ k)

/-- `KeyValueStoreBase::addOrUpdate`: erase the key, then emplace the new pair. -/
def addOrUpdate (s : Store) (k v : List Char) : Store :=
  storeEmplace (storeErase s k) k v

/-- `KeyValueStoreBase::remove`. -/
def remove (s : Store) (k : List Char) : Store := storeErase s k

theorem getToken_ok_length {c t r : List Char} (h : getToken c = .ok (t, r)) :
    r.length < c.length := by
  cases c with
  | nil => exact absurd h (by simp [getToken])
  | cons a as =>
    unfold getToken at h
    dsimp only at h
    split at h
    · exact absurd h (by simp)
    · split at h
      · exact absurd h (by simp)
      · split at h
        · exact absurd h (by simp)
        · simp only [Except.ok.injEq, Prod.mk.injEq] at h
          obtain ⟨-, hrr⟩ := h
          rw [← hrr]
          simp only [List.length_drop, List.length_cons]
          omega

/-- `KeyValueStoreBase::parseContents`: repeatedly strips a key token and a value
token from the contents, emplacing each pair into the store; returns false as soon
as a token cannot be extracted, keeping everything emplaced so far. -/
def parseContents (contents : List Char) (store : Store) : Bool × Store :=
  if contents = [] then (true, store)
  else
    match hk : getToken contents with
    | .error _ => (false, store)
    | .ok (key, c₁) =>
      match hv : getToken c₁ with
      | .error _ => (false, store)
      | .ok (value, c₂) => parseContents c₂ (storeEmplace store key value)
termination_by contents.length
decreasing_by
  exact Nat.lt_trans (getToken_ok_length hv) (getToken_ok_length hk)

/-- Declarative description of one length-prefixed token: the contents decompose into
a newline-free length field that reads as the decimal number n, a newline, a token of
exactly n characters, and the remaining contents. -/
def TokenSpec (c tok rest : List Char) : Prop :=
  ∃ pre n, '\n' ∉ pre ∧ simpleAtoiU64 pre = some n ∧ tok.length = n ∧
    c = pre ++ '\n' :: (tok ++ rest)

theorem takeWhile_no_newline (pre z : List Char) (h : '\n' ∉ pre) :
    (pre ++ '\n' :: z).takeWhile (fun c => c ≠ '\n') = pre := by
  induction pre with
  | nil =>
    rw [List.nil_append, List.takeWhile_cons_of_neg (by simp)]
  | cons a as ih =>
    have ha : a ≠ '\n' := fun hc => h (hc ▸ List.mem_cons_self a as)
    have has : '\n' ∉ as := fun hc => h (List.mem_cons_of_mem a hc)
    rw [List.cons_append, List.takeWhile_cons_of_pos (by simp [ha]), ih has]

theorem drop_past_newline (pre z : List Char) :
    (pre ++ '\n' :: z).drop (pre.length + 1) = z := by
  have : pre ++ '\n' :: z = (pre ++ ['\n']) ++ z := by simp
  rw [this]
  have hlen : (pre ++ ['\n']).length = pre.length + 1 := by simp
  rw [← hlen, List.drop_left]

theorem first_newline_decomposition (c : List Char)
    (h : (c.takeWhile (fun c => c ≠ '\n')).length ≠ c.length) :
    c = c.takeWhile (fun c => c ≠ '\n') ++
      '\n' :: c.drop ((c.takeWhile (fun c => c ≠ '\n')).length + 1) := by
  induction c with
  | nil => simp at h
  | cons a as ih =>
    by_cases ha : a = '\n'
    · subst ha
      rw [List.takeWhile_cons_of_neg (by simp)]
      simp
    · rw [List.takeWhile_cons_of_pos (by simp [ha])] at h ⊢
      simp only [List.length_cons] at h
      have h2 : (as.takeWhile (fun c => c ≠ '\n')).length ≠ as.length := fun hc => h (by omega)
      rw [List.cons_append, List.length_cons, List.drop_succ_cons, ← ih h2]

theorem no_newline_takeWhile (c : List Char) :
    '\n' ∉ c.takeWhile (fun c => c ≠ '\n') := by
  intro hmem
  have := List.mem_takeWhile_imp hmem
  simp at this

theorem getToken_ok_of_tokenSpec {c tok rest : List Char} (h : TokenSpec c tok rest) :
    getToken c = .ok (tok, rest) := by
  obtain ⟨pre, n, hnl, hatoi, hlen, rfl⟩ := h
  unfold getToken
  dsimp only
  rw [takeWhile_no_newline pre _ hnl]
  have h1 : pre.length ≠ (pre ++ '\n' :: (tok ++ rest)).length := by
    simp only [List.length_append, List.length_cons]
    omega
  rw [if_neg h1, hatoi, drop_past_newline]
  dsimp only
  have h2 : ¬ (tok ++ rest).length < n := by
    simp only [List.length_append]
    omega
  rw [if_neg h2]
  have ht : (tok ++ rest).take n = tok := by rw [← hlen, List.take_left]
  have hd : (tok ++ rest).drop n = rest := by rw [← hlen, List.drop_left]
  rw [ht, hd]

theorem tokenSpec_of_getToken_ok {c tok rest : List Char} (h : getToken c = .ok (tok, rest)) :
    TokenSpec c tok rest := by
  unfold getToken at h
  dsimp only at h
  split at h
  · exact absurd h (by simp)
  · rename_i hne
    cases hatoi : simpleAtoiU64 (c.takeWhile (fun c => c ≠ '\n')) with
    | none => rw [hatoi] at h; exact absurd h (by simp)
    | some n =>
      rw [hatoi] at h
      dsimp only at h
      split at h
      · exact absurd h (by simp)
      · rename_i hfit
        simp only [Except.ok.injEq, Prod.mk.injEq] at h
        obtain ⟨htok, hrest⟩ := h
        refine ⟨c.takeWhile (fun c => c ≠ '\n'), n, no_newline_takeWhile c, hatoi, ?_, ?_⟩
        · rw [← htok]
          simp only [List.length_take]
          omega
        · rw [← htok, ← hrest, List.take_append_drop]
          exact first_newline_decomposition c hne

theorem getToken_ok_iff {c tok rest : List Char} :
    getToken c = .ok (tok, rest) ↔ TokenSpec c tok rest :=
  ⟨tokenSpec_of_getToken_ok, getToken_ok_of_tokenSpec⟩

theorem tokenSpec_unique {c t r t₂ r₂ : List Char} (h1 : TokenSpec c t r)
    (h2 : TokenSpec c t₂ r₂) : t = t₂ ∧ r = r₂ := by
  have e1 := getToken_ok_of_tokenSpec h1
  have e2 := getToken_ok_of_tokenSpec h2
  rw [e1] at e2
  have := Except.ok.inj e2
  exact ⟨congrArg Prod.fst this, congrArg Prod.snd this⟩

theorem getToken_error_iff {c : List Char} :
    (∃ msg, getToken c = .error msg) ↔ ¬ ∃ t r, TokenSpec c t r := by
  constructor
  · rintro ⟨msg, hmsg⟩ ⟨t, r, hspec⟩
    rw [getToken_ok_of_tokenSpec hspec] at hmsg
    exact absurd hmsg (by simp)
  · intro hno
    cases hg : getToken c with
    | error msg => exact ⟨msg, rfl⟩
    | ok p => exact absurd ⟨p.1, p.2, tokenSpec_of_getToken_ok hg⟩ hno

/-- Left-to-right scan relation: starting from the first contents, alternately
extract a key token and a value token, collecting the pairs, and stop with the
given remaining contents. -/
inductive ScanTo : List Char → List (List Char × List Char) → List Char → Prop where
  | refl (c : List Char) : ScanTo c [] c
  | step {c k c₁ v c₂ c' : List Char} {ps : List (List Char × List Char)} :
      TokenSpec c k c₁ → TokenSpec c₁ v c₂ → ScanTo c₂ ps c' → ScanTo c ((k, v) :: ps) c'

/-- The scan fails at this point: either the contents are nonempty but no key token
can be extracted, or a key token extracts and no value token can follow it. -/
def FailsAt (c : List Char) : Prop :=
  (c ≠ [] ∧ ¬ ∃ t r, TokenSpec c t r) ∨
  (∃ k c₁, TokenSpec c k c₁ ∧ ¬ ∃ t r, TokenSpec c₁ t r)

/-- Emplace a list of pairs into the store, in order. -/
def emplacePairs (s : Store) (ps : List (List Char × List Char)) : Store :=
  ps.foldl (fun st p => storeEmplace st p.1 p.2) s

theorem emplacePairs_cons (s : Store) (k v : List Char) (ps : List (List Char × List Char)) :
    emplacePairs s ((k, v) :: ps) = emplacePairs (storeEmplace s k v) ps := rfl

theorem tokenSpec_nil {t r : List Char} : ¬ TokenSpec [] t r := by
  rintro ⟨pre, n, -, -, -, habs⟩
  exact absurd habs (by simp)

theorem parseContents_nil (s : Store) : parseContents [] s = (true, s) := by
  rw [parseContents]
  simp

theorem parseContents_key_err {c : List Char} {msg : String} (hc : c ≠ [])
    (hk : getToken c = .error msg) (s : Store) : parseContents c s = (false, s) := by
  rw [parseContents, if_neg hc]
  split
  · rfl
  · rename_i key c₁ heq
    rw [hk] at heq
    exact absurd heq (by simp)

theorem parseContents_val_err {c k c₁ : List Char} {msg : String} (hc : c ≠ [])
    (hk : getToken c = .ok (k, c₁)) (hv : getToken c₁ = .error msg) (s : Store) :
    parseContents c s = (false, s) := by
  rw [parseContents, if_neg hc]
  split
  · rfl
  · rename_i key c₁' heq
    rw [hk] at heq
    obtain ⟨hkey, hc₁⟩ : key = k ∧ c₁' = c₁ := by
      have := Except.ok.inj heq
      exact ⟨(congrArg Prod.fst this).symm, (congrArg Prod.snd this).symm⟩
    subst hkey; subst hc₁
    split
    · rfl
    · rename_i value c₂ heq2
      rw [hv] at heq2
      exact absurd heq2 (by simp)

theorem parseContents_step {c k c₁ v c₂ : List Char} (hc : c ≠ [])
    (hk : getToken c = .ok (k, c₁)) (hv : getToken c₁ = .ok (v, c₂)) (s : Store) :
    parseContents c s = parseContents c₂ (storeEmplace s k v) := by
  rw [parseContents, if_neg hc]
  split
  · rename_i msg heq
    rw [hk] at heq
    exact absurd heq (by simp)
  · rename_i key c₁' heq
    rw [hk] at heq
    obtain ⟨hkey, hc₁⟩ : key = k ∧ c₁' = c₁ := by
      have := Except.ok.inj heq
      exact ⟨(congrArg Prod.fst this).symm, (congrArg Prod.snd this).symm⟩
    subst hkey; subst hc₁
    split
    · rename_i msg heq2
      rw [hv] at heq2
      exact absurd heq2 (by simp)
    · rename_i value c₂' heq2
      rw [hv] at heq2
      obtain ⟨hval, hc₂⟩ : value = v ∧ c₂' = c₂ := by
        have := Except.ok.inj heq2
        exact ⟨(congrArg Prod.fst this).symm, (congrArg Prod.snd this).symm⟩
      subst hval; subst hc₂
      rfl

theorem parse_master_nil (s : Store) :
    (∀ ps, ScanTo [] ps [] → parseContents [] s = (true, emplacePairs s ps)) ∧
    ((parseContents [] s).1 = true → ∃ ps, ScanTo [] ps []) ∧
    (∀ ps c', ScanTo [] ps c' → FailsAt c' →
      parseContents [] s = (false, emplacePairs s ps)) ∧
    ((parseContents [] s).1 = false → ∃ ps c', ScanTo [] ps c' ∧ FailsAt c') := by
  refine ⟨?_, ?_, ?_, ?_⟩
  · intro ps hscan
    cases hscan with
    | refl => exact parseContents_nil s
    | step h1 _ _ => exact absurd h1 tokenSpec_nil
  · intro _
    exact ⟨[], .refl []⟩
  · intro ps c' hscan hfail
    cases hscan with
    | refl =>
      rcases hfail with ⟨hne, -⟩ | ⟨k, c₁, hts, -⟩
      · exact absurd rfl hne
      · exact absurd hts tokenSpec_nil
    | step h1 _ _ => exact absurd h1 tokenSpec_nil
  · intro hfalse
    rw [parseContents_nil] at hfalse
    exact absurd hfalse (by simp)

theorem parse_master (n : Nat) : ∀ c : List Char, c.length ≤ n → ∀ s : Store,
    (∀ ps, ScanTo c ps [] → parseContents c s = (true, emplacePairs s ps)) ∧
    ((parseContents c s).1 = true → ∃ ps, ScanTo c ps []) ∧
    (∀ ps c', ScanTo c ps c' → FailsAt c' → parseContents c s = (false, emplacePairs s ps)) ∧
    ((parseContents c s).1 = false → ∃ ps c', ScanTo c ps c' ∧ FailsAt c') := by
  induction n with
  | zero =>
    intro c hlen s
    have hc : c = [] := List.length_eq_zero.mp (Nat.le_zero.mp hlen)
    subst hc
    exact parse_master_nil s
  | succ m ih =>
    intro c hlen s
    by_cases hc : c = []
    · subst hc
      exact parse_master_nil s
    · cases hk : getToken c with
      | error msg =>
        have hnotok : ¬ ∃ t r, TokenSpec c t r := by
          rintro ⟨t, r, hts⟩
          rw [getToken_ok_of_tokenSpec hts] at hk
          exact absurd hk (by simp)
        refine ⟨?_, ?_, ?_, ?_⟩
        · intro ps hscan
          cases hscan with
          | refl => exact absurd rfl hc
          | step h1 _ _ => exact absurd ⟨_, _, h1⟩ hnotok
        · intro htrue
          rw [parseContents_key_err hc hk] at htrue
          exact absurd htrue (by simp)
        · intro ps c' hscan hfail
          cases hscan with
          | refl => exact parseContents_key_err hc hk s
          | step h1 _ _ => exact absurd ⟨_, _, h1⟩ hnotok
        · intro _
          exact ⟨[], c, .refl c, Or.inl ⟨hc, hnotok⟩⟩
      | ok kp =>
        obtain ⟨k, c₁⟩ := kp
        have ts1 : TokenSpec c k c₁ := tokenSpec_of_getToken_ok hk
        cases hv : getToken c₁ with
        | error msg =>
          have hnotok : ¬ ∃ t r, TokenSpec c₁ t r := by
            rintro ⟨t, r, hts⟩
            rw [getToken_ok_of_tokenSpec hts] at hv
            exact absurd hv (by simp)
          refine ⟨?_, ?_, ?_, ?_⟩
          · intro ps hscan
            cases hscan with
            | refl => exact absurd rfl hc
            | step h1 h2 _ =>
              obtain ⟨-, hr⟩ := tokenSpec_unique h1 ts1
              subst hr
              exact absurd ⟨_, _, h2⟩ hnotok
          · intro htrue
            rw [parseContents_val_err hc hk hv] at htrue
            exact absurd htrue (by simp)
          · intro ps c' hscan hfail
            cases hscan with
            | refl => exact parseContents_val_err hc hk hv s
            | step h1 h2 _ =>
              obtain ⟨-, hr⟩ := tokenSpec_unique h1 ts1
              subst hr
              exact absurd ⟨_, _, h2⟩ hnotok
          · intro _
            exact ⟨[], c, .refl c, Or.inr ⟨k, c₁, ts1, hnotok⟩⟩
        | ok vp =>
          obtain ⟨v, c₂⟩ := vp
          have ts2 : TokenSpec c₁ v c₂ := tokenSpec_of_getToken_ok hv
          have hstep := parseContents_step hc hk hv s
          have hlen2 : c₂.length ≤ m := by
            have l1 := getToken_ok_length hk
            have l2 := getToken_ok_length hv
            omega
          have IH := ih c₂ hlen2 (storeEmplace s k v)
          refine ⟨?_, ?_, ?_, ?_⟩
          · intro ps hscan
            cases hscan with
            | refl => exact absurd rfl hc
            | step h1 h2 hrest =>
              obtain ⟨hkk, hr⟩ := tokenSpec_unique h1 ts1
              subst hkk; subst hr
              obtain ⟨hvv, hr2⟩ := tokenSpec_unique h2 ts2
              subst hvv; subst hr2
              rw [hstep, emplacePairs_cons]
              exact IH.1 _ hrest
          · intro htrue
            rw [hstep] at htrue
            obtain ⟨ps, hscan⟩ := IH.2.1 htrue
            exact ⟨(k, v) :: ps, .step ts1 ts2 hscan⟩
          · intro ps c' hscan hfail
            cases hscan with
            | refl =>
              rcases hfail with ⟨-, hno⟩ | ⟨k', c₁', hts, hno⟩
              · exact absurd ⟨_, _, ts1⟩ hno
              · obtain ⟨-, hr⟩ := tokenSpec_unique hts ts1
                subst hr
                exact absurd ⟨_, _, ts2⟩ hno
            | step h1 h2 hrest =>
              obtain ⟨hkk, hr⟩ := tokenSpec_unique h1 ts1
              subst hkk; subst hr
              obtain ⟨hvv, hr2⟩ := tokenSpec_unique h2 ts2
              subst hvv; subst hr2
              rw [hstep, emplacePairs_cons]
              exact IH.2.2.1 _ _ hrest hfail
          · intro hfalse
            rw [hstep] at hfalse
            obtain ⟨ps, c', hscan, hfail⟩ := IH.2.2.2 hfalse
            exact ⟨(k, v) :: ps, c', .step ts1 ts2 hscan, hfail⟩

/-- C8: `parseContents` returns true exactly when the whole input is consumed as
alternating length-prefixed key and value tokens; it returns false exactly when the
left-to-right scan reaches a point where a key token cannot be extracted (no newline,
length field not a decimal integer, or fewer characters than the declared length —
the three cases folded into the absence of a `TokenSpec` decomposition) or a key
token parses but its value token does not; and the pairs parsed before the failure
point remain emplaced in the store (no rollback). -/
theorem parseContents_characterization (c : List Char) (s : Store) :
    ((parseContents c s).1 = true ↔ ∃ ps, ScanTo c ps []) ∧
    ((parseContents c s).1 = false ↔ ∃ ps c', ScanTo c ps c' ∧ FailsAt c') ∧
    (∀ ps, ScanTo c ps [] → parseContents c s = (true, emplacePairs s ps)) ∧
    (∀ ps c', ScanTo c ps c' → FailsAt c' →
      parseContents c s = (false, emplacePairs s ps)) := by
  have M := parse_master c.length c (le_refl _) s
  refine ⟨⟨M.2.1, ?_⟩, ⟨M.2.2.2, ?_⟩, M.1, M.2.2.1⟩
  · rintro ⟨ps, hscan⟩
    rw [M.1 ps hscan]
  · rintro ⟨ps, c', hscan, hfail⟩
    rw [M.2.2.1 ps c' hscan hfail]

theorem parseContents_characterization_witness :
    ScanTo ['1', '\n', 'a', '1', '\n', 'b'] [(['a'], ['b'])] [] ∧
    parseContents ['1', '\n', 'a', '1', '\n', 'b'] [] = (true, [(['a'], ['b'])]) := by
  have h1 : TokenSpec ['1', '\n', 'a', '1', '\n', 'b'] ['a'] ['1', '\n', 'b'] :=
    ⟨['1'], 1, by decide, by decide, by decide, by decide⟩
  have h2 : TokenSpec ['1', '\n', 'b'] ['b'] [] :=
    ⟨['1'], 1, by decide, by decide, by decide, by decide⟩
  have hscan : ScanTo ['1', '\n', 'a', '1', '\n', 'b'] [(['a'], ['b'])] [] :=
    .step h1 h2 (.refl [])
  exact ⟨hscan, (parseContents_characterization _ _).2.2.1 _ hscan⟩

/-- Decimal rendering of a number, most significant digit first: what
`absl::StrCat(n)` produces for the length fields written by flush. -/
def natToDecimal (n : Nat) : List Char :=
  if n < 10 then [Nat.digitChar n]
  else natToDecimal (n / 10) ++ [Nat.digitChar (n % 10)]
termination_by n
decreasing_by
  rename_i h
  exact Nat.div_lt_self (by omega) (by omega)

theorem digitsToNat_append_digit (cs : List Char) (c : Char) :
    digitsToNat (cs ++ [c]) = digitsToNat cs * 10 + digitVal c := by
  unfold digitsToNat
  rw [List.foldl_append]
  rfl

theorem digitChar_props {d : Nat} (h : d < 10) :
    digitVal (Nat.digitChar d) = d ∧ (Nat.digitChar d).isDigit = true ∧
    Nat.digitChar d ≠ '\n' ∧ isAsciiSpace (Nat.digitChar d) = false ∧
    Nat.digitChar d ≠ '+' := by
  interval_cases d <;> exact ⟨by decide, by decide, by decide, by decide, by decide⟩

theorem natToDecimal_spec (n : Nat) :
    digitsToNat (natToDecimal n) = n ∧ natToDecimal n ≠ [] ∧
    (∀ c ∈ natToDecimal n, c.isDigit = true ∧ c ≠ '\n' ∧ isAsciiSpace c = false ∧
      c ≠ '+') := by
  induction n using Nat.strong_induction_on with
  | _ n ih =>
    by_cases h : n < 10
    · rw [natToDecimal, if_pos h]
      refine ⟨?_, by simp, ?_⟩
      · have hv : digitsToNat [Nat.digitChar n] = digitVal (Nat.digitChar n) := by
          simp [digitsToNat]
        rw [hv, (digitChar_props h).1]
      · intro c hc
        rw [List.mem_singleton] at hc
        subst hc
        exact ⟨(digitChar_props h).2.1, (digitChar_props h).2.2.1,
          (digitChar_props h).2.2.2.1, (digitChar_props h).2.2.2.2⟩
    · rw [natToDecimal, if_neg h]
      have hd : n / 10 < n := Nat.div_lt_self (by omega) (by omega)
      obtain ⟨ihval, ihne, ihprops⟩ := ih (n / 10) hd
      have hmod : n % 10 < 10 := Nat.mod_lt _ (by omega)
      refine ⟨?_, by simp, ?_⟩
      · rw [digitsToNat_append_digit, ihval, (digitChar_props hmod).1]
        omega
      · intro c hc
        rcases List.mem_append.mp hc with hc | hc
        · exact ihprops c hc
        · rw [List.mem_singleton] at hc
          subst hc
          exact ⟨(digitChar_props hmod).2.1, (digitChar_props hmod).2.2.1,
            (digitChar_props hmod).2.2.2.1, (digitChar_props hmod).2.2.2.2⟩

theorem dropWhile_eq_self_of_forall (p : Char → Bool) (l : List Char)
    (h : ∀ c ∈ l, p c = false) : l.dropWhile p = l := by
  cases l with
  | nil => rfl
  | cons a t =>
    rw [List.dropWhile_cons_of_neg]
    simp [h a (List.mem_cons_self a t)]

theorem simpleAtoiU64_natToDecimal {m : Nat} (h : m < 2 ^ 64) :
    simpleAtoiU64 (natToDecimal m) = some m := by
  obtain ⟨hval, hne, hprops⟩ := natToDecimal_spec m
  have hds : (natToDecimal m).dropWhile isAsciiSpace = natToDecimal m :=
    dropWhile_eq_self_of_forall _ _ (fun c hc => (hprops c hc).2.2.1)
  have hds2 : (natToDecimal m).reverse.dropWhile isAsciiSpace = (natToDecimal m).reverse :=
    dropWhile_eq_self_of_forall _ _ (fun c hc => (hprops c (List.mem_reverse.mp hc)).2.2.1)
  have hhead : ¬ (natToDecimal m).head? = some '+' := by
    cases hL : natToDecimal m with
    | nil => simp
    | cons a l =>
      have hmem : a ∈ natToDecimal m := by rw [hL]; exact List.mem_cons_self a l
      have ha : a ≠ '+' := (hprops a hmem).2.2.2
      simp only [List.head?_cons]
      intro hcontra
      exact ha (Option.some.inj hcontra)
  have hall : (natToDecimal m).all Char.isDigit = true :=
    List.all_eq_true.mpr (fun c hc => (hprops c hc).1)
  unfold simpleAtoiU64
  dsimp only
  rw [hds, hds2, List.reverse_reverse, if_neg hhead]
  rw [if_pos ⟨hne, hall, by rw [hval]; exact h⟩, hval]

/-- The byte sequence `FileBasedKeyValueStore::flush` writes for one entry: the
key's decimal length, a newline, the key, the value's decimal length, a newline,
and the value. -/
def serializeEntry (k v : List Char) : List Char :=
  natToDecimal k.length ++ '\n' :: (k ++ (natToDecimal v.length ++ '\n' :: v))

/-- The whole file contents flush writes: every store entry serialized in
iteration order. -/
def flushContents : Store → List Char
  | [] => []
  | (k, v) :: rest => serializeEntry k v ++ flushContents rest

theorem get_append_of_none {s : Store} {k : List Char} (h : get s k = none) (t : Store) :
    get (s ++ t) k = get t k := by
  induction s with
  | nil => rfl
  | cons p rest ih =>
    by_cases hp : p.1 = k
    · simp only [get, if_pos hp] at h
      exact absurd h (by simp)
    · simp only [get, if_neg hp] at h
      rw [List.cons_append]
      simp only [get, if_neg hp]
      exact ih h

theorem storeEmplace_of_none {s : Store} {k : List Char} (h : get s k = none)
    (v : List Char) : storeEmplace s k v = s ++ [(k, v)] := by
  simp [storeEmplace, h]

theorem serializeEntry_append_ne_nil (k v z : List Char) :
    serializeEntry k v ++ z ≠ [] := by
  simp only [serializeEntry, List.append_assoc, ne_eq, List.append_eq_nil]
  rintro ⟨-, habs, -⟩
  exact absurd habs (by simp)

theorem flush_parse_general : ∀ m : Store, (m.map Prod.fst).Nodup →
    (∀ p ∈ m, p.1.length < 2 ^ 64 ∧ p.2.length < 2 ^ 64) →
    ∀ s : Store, (∀ p ∈ m, get s p.1 = none) →
    parseContents (flushContents m) s = (true, s ++ m) := by
  intro m
  induction m with
  | nil =>
    intro _ _ s _
    rw [flushContents, parseContents_nil, List.append_nil]
  | cons p rest ih =>
    obtain ⟨k, v⟩ := p
    intro hnodup hbounds s hdisj
    have hkb := (hbounds (k, v) (List.mem_cons_self _ _)).1
    have hvb := (hbounds (k, v) (List.mem_cons_self _ _)).2
    have hshape : flushContents ((k, v) :: rest) =
        natToDecimal k.length ++
          '\n' :: (k ++ (natToDecimal v.length ++ '\n' :: (v ++ flushContents rest))) := by
      simp [flushContents, serializeEntry, List.append_assoc]
    have ts1 : TokenSpec (flushContents ((k, v) :: rest)) k
        (natToDecimal v.length ++ '\n' :: (v ++ flushContents rest)) :=
      ⟨natToDecimal k.length, k.length,
        fun hmem => ((natToDecimal_spec k.length).2.2 _ hmem).2.1 rfl,
        simpleAtoiU64_natToDecimal hkb, rfl, hshape⟩
    have ts2 : TokenSpec (natToDecimal v.length ++ '\n' :: (v ++ flushContents rest)) v
        (flushContents rest) :=
      ⟨natToDecimal v.length, v.length,
        fun hmem => ((natToDecimal_spec v.length).2.2 _ hmem).2.1 rfl,
        simpleAtoiU64_natToDecimal hvb, rfl, rfl⟩
    have hc : flushContents ((k, v) :: rest) ≠ [] := by
      rw [flushContents]
      exact serializeEntry_append_ne_nil k v _
    have hstep := parseContents_step hc (getToken_ok_of_tokenSpec ts1)
      (getToken_ok_of_tokenSpec ts2) s
    have hknot : k ∉ rest.map Prod.fst := (List.nodup_cons.mp hnodup).1
    have hemp : storeEmplace s k v = s ++ [(k, v)] :=
      storeEmplace_of_none (hdisj (k, v) (List.mem_cons_self _ _)) v
    have hdisj2 : ∀ p ∈ rest, get (s ++ [(k, v)]) p.1 = none := by
      intro p hp
      have h1 : get s p.1 = none := hdisj p (List.mem_cons_of_mem _ hp)
      rw [get_append_of_none h1]
      have hne : ¬ k = p.1 := fun hcontra =>
        hknot (hcontra ▸ List.mem_map_of_mem Prod.fst hp)
      simp [get, hne]
    have hrec := ih (List.nodup_cons.mp hnodup).2
      (fun p hp => hbounds p (List.mem_cons_of_mem _ hp)) (s ++ [(k, v)]) hdisj2
    rw [hstep, hemp, hrec]
    simp

/-- C9: round trip of the key/value store file format — parsing the serialization
flush produces (per entry: decimal key length, newline, key, decimal value length,
newline, value) into an empty store succeeds and reproduces exactly the original
entries. -/
theorem flush_parse_roundTrip (m : Store) (hnodup : (m.map Prod.fst).Nodup)
    (hbounds : ∀ p ∈ m, p.1.length < 2 ^ 64 ∧ p.2.length < 2 ^ 64) :
    parseContents (flushContents m) [] = (true, m) := by
  have h := flush_parse_general m hnodup hbounds [] (fun p _ => rfl)
  simpa using h

theorem flush_parse_roundTrip_witness :
    (([(['a'], ['b', 'c']), (['d'], [])] : Store).map Prod.fst).Nodup ∧
    parseContents (flushContents [(['a'], ['b', 'c']), (['d'], [])]) [] =
      (true, [(['a'], ['b', 'c']), (['d'], [])]) :=
  ⟨by decide, flush_parse_roundTrip _ (by decide) (by decide)⟩

/-- One client-visible mutation of the store: `addOrUpdate` or `remove`. -/
inductive StoreOp where
  | add (k v : List Char)
  | rem (k : List Char)
deriving DecidableEq

def applyOp (s : Store) : StoreOp → Store
  | .add k v => addOrUpdate s k v
  | .rem k => remove s k

/-- Run a sequence of store operations against an initially empty store. -/
def runOps (ops : List StoreOp) : Store := ops.foldl applyOp []

theorem get_storeErase_of_none {s : Store} {k : List Char} (h : get s k = none)
    (k2 : List Char) : get (storeErase s k2) k = none := by
  induction s with
  | nil => rfl
  | cons p rest ih =>
    by_cases hp : p.1 = k
    · simp only [get, if_pos hp] at h
      exact absurd h (by simp)
    · simp only [get, if_neg hp] at h
      by_cases hp2 : p.1 = k2
      · rw [storeErase, List.filter_cons, if_neg (by simp [hp2])]
        exact ih h
      · rw [storeErase, List.filter_cons, if_pos (by simp [hp2])]
        simp only [get, if_neg hp]
        exact ih h

theorem get_storeErase_self (s : Store) (k : List Char) :
    get (storeErase s k) k = none := by
  induction s with
  | nil => rfl
  | cons p rest ih =>
    by_cases hp : p.1 = k
    · rw [storeErase, List.filter_cons, if_neg (by simp [hp])]
      exact ih
    · rw [storeErase, List.filter_cons, if_pos (by simp [hp])]
      simp only [get, if_neg hp]
      exact ih

theorem get_append_singleton_self (s : Store) (k v : List Char) (h : get s k = none) :
    get (s ++ [(k, v)]) k = some v := by
  rw [get_append_of_none h]
  simp [get]

/-- C10: after `addOrUpdate(k, v)`, `get(k)` returns v on any prior store state
(the key is erased before insertion, so any previous value is overwritten); after
`remove(k)`, `get(k)` returns nothing; and `get` on a key never touched by
`addOrUpdate` in a whole operation sequence returns nothing. -/
theorem store_ops_spec :
    (∀ (s : Store) (k v : List Char), get (addOrUpdate s k v) k = some v) ∧
    (∀ (s : Store) (k : List Char), get (remove s k) k = none) ∧
    (∀ (ops : List StoreOp) (k : List Char), (∀ v, StoreOp.add k v ∉ ops) →
      get (runOps ops) k = none) := by
  refine ⟨?_, ?_, ?_⟩
  · intro s k v
    rw [addOrUpdate, storeEmplace_of_none (get_storeErase_self s k)]
    exact get_append_singleton_self _ _ _ (get_storeErase_self s k)
  · intro s k
    exact get_storeErase_self s k
  · intro ops k hnever
    have main : ∀ (ops : List StoreOp) (s : Store), get s k = none →
        (∀ v, StoreOp.add k v ∉ ops) → get (ops.foldl applyOp s) k = none := by
      intro ops
      induction ops with
      | nil => intro s hs _; exact hs
      | cons op rest ih =>
        intro s hs hnev
        rw [List.foldl_cons]
        have hnevrest : ∀ v, StoreOp.add k v ∉ rest :=
          fun v hv => hnev v (List.mem_cons_of_mem _ hv)
        cases op with
        | add k2 v2 =>
          have hk2 : k2 ≠ k := by
            intro hcontra
            exact hnev v2 (hcontra ▸ List.mem_cons_self _ _)
          have hnone : get (applyOp s (.add k2 v2)) k = none := by
            show get (addOrUpdate s k2 v2) k = none
            rw [addOrUpdate, storeEmplace_of_none (get_storeErase_self s k2)]
            rw [get_append_of_none (get_storeErase_of_none hs k2)]
            simp [get, hk2]
          exact ih _ hnone hnevrest
        | rem k2 =>
          have hnone : get (applyOp s (.rem k2)) k = none :=
            get_storeErase_of_none hs k2
          exact ih _ hnone hnevrest
    exact main ops [] rfl hnever

theorem store_ops_spec_witness :
    get (addOrUpdate [(['a'], ['x'])] ['a'] ['b']) ['a'] = some ['b'] ∧
    get (remove [(['a'], ['b'])] ['a']) ['a'] = none ∧
    (∀ v, StoreOp.add ['c'] v ∉ [StoreOp.add ['a'] ['b'], StoreOp.rem ['a']]) ∧
    get (runOps [StoreOp.add ['a'] ['b'], StoreOp.rem ['a']]) ['c'] = none := by
  have hnever : ∀ v, StoreOp.add ['c'] v ∉ [StoreOp.add ['a'] ['b'], StoreOp.rem ['a']] := by
    intro v
    simp
  exact ⟨store_ops_spec.1 [(['a'], ['x'])] ['a'] ['b'],
    store_ops_spec.2.1 [(['a'], ['b'])] ['a'], hnever,
    store_ops_spec.2.2 _ ['c'] hnever⟩

end Envoy.KeyValueStore

namespace Envoy.KafkaMesh

/-- Kafka api key of the metadata request, as used by the unit test. -/
def METADATA_REQUEST_API_KEY : Int := 3

/-- Kafka api key of the api-versions (protocol-version-negotiation) request. -/
def API_VERSIONS_REQUEST_API_KEY : Int := 18

/-- Kafka api key of the list-offsets request (unimplemented by the mesh filter). -/
def LIST_OFFSET_REQUEST_API_KEY : Int := 2

/-- The decoded request header: request-type identifier (api key), protocol version,
correlation identifier, optional client identifier. -/
structure RequestHeader where
  apiKey : Int
  apiVersion : Int
  correlationId : Int
  clientId : Option String
deriving DecidableEq

/-- A type-specific request body. Only the bodies the unit test exercises are
distinguished; any other body is carried behind an abstract tag. -/
inductive RequestBody where
  | metadataBody (topics : Option (List String))
  | apiVersionsBody
  | listOffsetBody (replicaId : Int) (topics : List String)
  | otherBody (tag : Int)
deriving DecidableEq

/-- A decoded Request Envelope: a header and a type-specific body. -/
structure RequestEnvelope where
  header : RequestHeader
  body : RequestBody
deriving DecidableEq

/-- A Decode-Failure Record: a decodable header whose body could not be decoded. -/
structure RequestParseFailure where
  header : RequestHeader
deriving DecidableEq

/-- The closed set of handler kinds the Dispatch Table registers (spec §9 advises a
tagged discriminant in place of the source's dynamic casts). -/
inductive HandlerKind where
  | metadata
  | apiVersions
deriving DecidableEq

/-- Modelled from the spec: a Dispatch Table Entry — immutable pair of request-type
identifier and supported version interval, selecting a handler kind
(request_processor.cc is not under src/, only its unit test). -/
structure DispatchEntry where
  apiKey : Int
  minVersion : Int
  maxVersion : Int
  kind : HandlerKind
deriving DecidableEq

/-- Modelled from the spec: the Dispatch Table built once at startup, registering the
two exemplar handlers — metadata and protocol-version negotiation. -/
def dispatchTable : List DispatchEntry :=
  [⟨METADATA_REQUEST_API_KEY, 0, 12, .metadata⟩,
   ⟨API_VERSIONS_REQUEST_API_KEY, 0, 3, .apiVersions⟩]

/-- Modelled from the spec: Dispatch Table lookup by request-type identifier with the
version checked against the entry's supported interval. -/
def findEntry (table : List DispatchEntry) (key version : Int) : Option DispatchEntry :=
  table.find? (fun e =>
    decide (e.apiKey = key ∧ e.minVersion ≤ version ∧ version ≤ e.maxVersion))

/-- A cluster configuration returned by upstream resolution. -/
structure ClusterConfig where
  clusterName : String
  bootstrapServers : String
deriving DecidableEq

/-- The Upstream Configuration collaborator (query-only interface): topic-to-cluster
resolution and the proxy's advertised address, per the test's mock. -/
structure UpstreamConfig where
  computeClusterConfigForTopic : String → Option ClusterConfig
  getAdvertisedAddress : String × Int

/-- Modelled from the spec: the Command produced by a handler factory — a tagged sum
over the closed set of handler kinds, carrying the originating header. -/
inductive Command where
  | metadataCmd (header : RequestHeader) (topics : Option (List String))
  | apiVersionsCmd (header : RequestHeader)
deriving DecidableEq

/-- The concrete handler kind of a Command (what the test recovers by dynamic cast). -/
def Command.kind : Command → HandlerKind
  | .metadataCmd _ _ => .metadata
  | .apiVersionsCmd _ => .apiVersions

/-- Modelled from the spec: the handler factory registered for a dispatch entry,
building the Command for an envelope from its header and body. -/
def buildCommand (kind : HandlerKind) (env : RequestEnvelope) : Command :=
  match kind with
  | .metadata =>
    match env.body with
    | .metadataBody ts => .metadataCmd env.header ts
    | _ => .metadataCmd env.header none
  | .apiVersions => .apiVersionsCmd env.header

/-- The typed errors the processor raises: UnsupportedRequest when no Dispatch Table
entry matches, UnknownRequest when the body could not be decoded at all. -/
inductive ProcError where
  | unsupportedRequest (apiKey : Int)
  | unknownRequest (apiKey : Int) (apiVersion : Int)
deriving DecidableEq

/-- The human-readable message of a processor error, identifying the offending
request-type identifier. -/
def ProcError.message : ProcError → String
  | .unsupportedRequest k => "unsupported api key: " ++ toString k
  | .unknownRequest k v =>
    "unknown request: api key " ++ toString k ++ ", version " ++ toString v

/-- The shared state visible to a Request Processor: the Dispatch Table, the
Upstream Configuration collaborator, and the Request Listener's notification log
(the Commands handed over via onRequest, in order). -/
structure ProcessorState where
  table : List DispatchEntry
  upstream : UpstreamConfig
  listenerLog : List Command

/-- Modelled from the spec: `RequestProcessor::onMessage` — look the envelope's
identifier and version up in the Dispatch Table; on a match build the Command and
hand it to the Listener (append to the notification log), otherwise raise
UnsupportedRequest and leave all state untouched. -/
def onMessage (env : RequestEnvelope) (s : ProcessorState) :
    ProcessorState × Except ProcError Command :=
  match findEntry s.table env.header.apiKey env.header.apiVersion with
  | some e =>
    let c := buildCommand e.kind env
    ({ s with listenerLog := s.listenerLog ++ [c] }, .ok c)
  | none => (s, .error (.unsupportedRequest env.header.apiKey))

/-- Modelled from the spec: `RequestProcessor::onFailedParse` — always raise
UnknownRequest with the header's advertised identifier and version, never dispatch,
never notify the Listener. -/
def onFailedParse (f : RequestParseFailure) (s : ProcessorState) :
    ProcessorState × Except ProcError Command :=
  (s, .error (.unknownRequest f.header.apiKey f.header.apiVersion))

/-- The abstract Command lifecycle states of spec §4.2. -/
inductive CmdState where
  | created
  | processing
  | answered
deriving DecidableEq

/-- One topic entry of a metadata response; a topic whose cluster cannot be resolved
is error-annotated instead of failing the request. -/
structure TopicMetadata where
  name : String
  isError : Bool
  cluster : Option ClusterConfig
deriving DecidableEq

/-- A metadata response: the proxy's own advertised address as the only broker, and
one entry per requested topic. -/
structure MetadataResponse where
  brokers : List (String × Int)
  topics : List TopicMetadata
deriving DecidableEq

/-- Modelled from the spec: the metadata handler's per-topic resolution — a resolved
cluster yields a normal entry, an unresolvable topic yields an error-annotated one. -/
def metadataTopicEntry (cfg : UpstreamConfig) (t : String) : TopicMetadata :=
  match cfg.computeClusterConfigForTopic t with
  | some c => ⟨t, false, some c⟩
  | none => ⟨t, true, none⟩

/-- Modelled from the spec: the complete metadata answer — broker list containing
exactly the advertised address, topic entries derived from cluster resolution. -/
def metadataAnswer (cfg : UpstreamConfig) (topics : Option (List String)) :
    MetadataResponse :=
  { brokers := [cfg.getAdvertisedAddress],
    topics := (topics.getD []).map (metadataTopicEntry cfg) }

/-- One supported api-key/version-range triple of an api-versions answer. -/
structure ApiVersion where
  apiKey : Int
  minVersion : Int
  maxVersion : Int
deriving DecidableEq

/-- The answer payload a Command eventually produces. -/
inductive Answer where
  | metadataAns (r : MetadataResponse)
  | apiVersionsAns (versions : List ApiVersion)
deriving DecidableEq

/-- The observable outcome of driving one Command to completion: the lifecycle
states it traverses in order, the answer it produces, and the topics for which it
consulted Upstream Configuration. -/
structure RunResult where
  trace : List CmdState
  answer : Answer
  consultedTopics : List String
deriving DecidableEq

/-- Modelled from the spec: driving a Command through its lifecycle. The metadata
handler passes through Processing, resolving each requested topic upstream; the
api-versions handler answers immediately from the Dispatch Table, consulting no
upstream state. -/
def runCommand (table : List DispatchEntry) (cfg : UpstreamConfig) :
    Command → RunResult
  | .metadataCmd _ ts =>
    ⟨[.created, .processing, .answered], .metadataAns (metadataAnswer cfg ts), ts.getD []⟩
  | .apiVersionsCmd _ =>
    ⟨[.created, .answered],
     .apiVersionsAns (table.map fun e => ⟨e.apiKey, e.minVersion, e.maxVersion⟩), []⟩

/-- A concrete upstream configuration for witnesses: no topic resolves. -/
def testUpstreamConfig : UpstreamConfig :=
  { computeClusterConfigForTopic := fun _ => none,
    getAdvertisedAddress := ("localhost", 9092) }

/-- A fresh processor state over the startup dispatch table. -/
def testState : ProcessorState :=
  { table := dispatchTable, upstream := testUpstreamConfig, listenerLog := [] }

theorem onMessage_eq_found {env : RequestEnvelope} {s : ProcessorState} {e : DispatchEntry}
    (hfind : findEntry s.table env.header.apiKey env.header.apiVersion = some e) :
    onMessage env s =
      ({ s with listenerLog := s.listenerLog ++ [buildCommand e.kind env] },
        .ok (buildCommand e.kind env)) := by
  rw [onMessage, hfind]

theorem onMessage_eq_notfound {env : RequestEnvelope} {s : ProcessorState}
    (hfind : findEntry s.table env.header.apiKey env.header.apiVersion = none) :
    onMessage env s = (s, .error (.unsupportedRequest env.header.apiKey)) := by
  rw [onMessage, hfind]

theorem buildCommand_kind (kind : HandlerKind) (env : RequestEnvelope) :
    (buildCommand kind env).kind = kind := by
  obtain ⟨hd, body⟩ := env
  cases kind with
  | metadata => cases body <;> rfl
  | apiVersions => rfl

theorem findEntry_dispatchTable (key version : Int) :
    findEntry dispatchTable key version =
      if key = METADATA_REQUEST_API_KEY ∧ 0 ≤ version ∧ version ≤ 12 then
        some ⟨METADATA_REQUEST_API_KEY, 0, 12, .metadata⟩
      else if key = API_VERSIONS_REQUEST_API_KEY ∧ 0 ≤ version ∧ version ≤ 3 then
        some ⟨API_VERSIONS_REQUEST_API_KEY, 0, 3, .apiVersions⟩
      else none := by
  rw [findEntry, dispatchTable]
  by_cases h1 : key = METADATA_REQUEST_API_KEY ∧ 0 ≤ version ∧ version ≤ 12
  · rw [if_pos h1, List.find?_cons_of_pos]
    simp only [decide_eq_true_eq]
    exact ⟨h1.1.symm, h1.2⟩
  · rw [if_neg h1, List.find?_cons_of_neg]
    · by_cases h2 : key = API_VERSIONS_REQUEST_API_KEY ∧ 0 ≤ version ∧ version ≤ 3
      · rw [if_pos h2, List.find?_cons_of_pos]
        simp only [decide_eq_true_eq]
        exact ⟨h2.1.symm, h2.2⟩
      · rw [if_neg h2, List.find?_cons_of_neg]
        · rfl
        · simp only [decide_eq_true_eq]
          exact fun hcontra => h2 ⟨hcontra.1.symm, hcontra.2⟩
    · simp only [decide_eq_true_eq]
      exact fun hcontra => h1 ⟨hcontra.1.symm, hcontra.2⟩

/-- C1: for every Request Envelope whose request-type identifier is present in the
startup Dispatch Table with a version inside the supported range, `onMessage`
constructs exactly one Command, hands it to the Request Listener exactly once (the
notification log grows by exactly that Command), and the Command's concrete kind is
the handler registered for that identifier — the metadata handler for the metadata
identifier, the version-negotiation handler for the version-negotiation identifier. -/
theorem onMessage_dispatch (env : RequestEnvelope) (s : ProcessorState) (e : DispatchEntry)
    (htable : s.table = dispatchTable)
    (hfind : findEntry s.table env.header.apiKey env.header.apiVersion = some e) :
    ∃ c : Command,
      (onMessage env s).2 = .ok c ∧
      (onMessage env s).1.listenerLog = s.listenerLog ++ [c] ∧
      c.kind = e.kind ∧
      (env.header.apiKey = METADATA_REQUEST_API_KEY → c.kind = .metadata) ∧
      (env.header.apiKey = API_VERSIONS_REQUEST_API_KEY → c.kind = .apiVersions) := by
  refine ⟨buildCommand e.kind env, ?_, ?_, buildCommand_kind e.kind env, ?_, ?_⟩
  · rw [onMessage_eq_found hfind]
  · rw [onMessage_eq_found hfind]
  · intro hkey
    rw [htable, findEntry_dispatchTable] at hfind
    rw [buildCommand_kind]
    split at hfind
    · rw [← Option.some.inj hfind]
    · split at hfind
      · rename_i hcond2
        rw [hkey] at hcond2
        exact absurd hcond2.1 (by decide)
      · exact absurd hfind (by simp)
  · intro hkey
    rw [htable, findEntry_dispatchTable] at hfind
    rw [buildCommand_kind]
    split at hfind
    · rename_i hcond1
      rw [hkey] at hcond1
      exact absurd hcond1.1 (by decide)
    · split at hfind
      · rw [← Option.some.inj hfind]
      · exact absurd hfind (by simp)

/-- The request envelopes and states the witnesses exercise mirror the unit test:
a metadata request, version 0, no topic list. -/
def envMetadata0 : RequestEnvelope :=
  ⟨⟨METADATA_REQUEST_API_KEY, 0, 0, none⟩, .metadataBody none⟩

/-- An api-versions request, version 1. -/
def envApiVersions0 : RequestEnvelope :=
  ⟨⟨API_VERSIONS_REQUEST_API_KEY, 1, 1, none⟩, .apiVersionsBody⟩

/-- A metadata request for one topic. -/
def envMetadata1 : RequestEnvelope :=
  ⟨⟨METADATA_REQUEST_API_KEY, 0, 2, none⟩, .metadataBody (some ["t"])⟩

/-- A list-offsets request: type recognized by the protocol but absent from the
Dispatch Table, as in the unit test's unsupported-request scenario. -/
def envListOffset0 : RequestEnvelope :=
  ⟨⟨LIST_OFFSET_REQUEST_API_KEY, 0, 0, none⟩, .listOffsetBody 0 []⟩

theorem onMessage_dispatch_witness :
    testState.table = dispatchTable ∧
    findEntry testState.table envMetadata0.header.apiKey envMetadata0.header.apiVersion =
      some ⟨METADATA_REQUEST_API_KEY, 0, 12, .metadata⟩ ∧
    ∃ c : Command,
      (onMessage envMetadata0 testState).2 = .ok c ∧
      (onMessage envMetadata0 testState).1.listenerLog = testState.listenerLog ++ [c] ∧
      c.kind = HandlerKind.metadata ∧
      (envMetadata0.header.apiKey = METADATA_REQUEST_API_KEY → c.kind = .metadata) ∧
      (envMetadata0.header.apiKey = API_VERSIONS_REQUEST_API_KEY → c.kind = .apiVersions) :=
  ⟨rfl, rfl, onMessage_dispatch envMetadata0 testState _ rfl rfl⟩

/-- C2: for every envelope whose identifier/version has no matching Dispatch Table
entry, `onMessage` raises UnsupportedRequest, whose message names the offending
request-type identifier, and the Listener log is unchanged (no notification). -/
theorem onMessage_unsupported (env : RequestEnvelope) (s : ProcessorState)
    (hfind : findEntry s.table env.header.apiKey env.header.apiVersion = none) :
    onMessage env s = (s, .error (.unsupportedRequest env.header.apiKey)) ∧
    ProcError.message (.unsupportedRequest env.header.apiKey) =
      "unsupported api key: " ++ toString env.header.apiKey ∧
    (onMessage env s).1.listenerLog = s.listenerLog := by
  refine ⟨onMessage_eq_notfound hfind, rfl, ?_⟩
  rw [onMessage_eq_notfound hfind]

theorem onMessage_unsupported_witness :
    findEntry testState.table envListOffset0.header.apiKey envListOffset0.header.apiVersion
      = none ∧
    onMessage envListOffset0 testState =
      (testState, .error (.unsupportedRequest envListOffset0.header.apiKey)) ∧
    ProcError.message (.unsupportedRequest envListOffset0.header.apiKey) =
      "unsupported api key: " ++ toString envListOffset0.header.apiKey ∧
    (onMessage envListOffset0 testState).1.listenerLog = testState.listenerLog :=
  ⟨rfl, onMessage_unsupported envListOffset0 testState rfl⟩

/-- C3: for every Decode-Failure Record and every processor state, `onFailedParse`
raises UnknownRequest carrying the header's advertised identifier and version, its
message references both, and the state — Listener log included — is returned
untouched, whatever the Dispatch Table contains (no dispatch is attempted). -/
theorem onFailedParse_unknown (f : RequestParseFailure) (s : ProcessorState) :
    onFailedParse f s =
      (s, .error (.unknownRequest f.header.apiKey f.header.apiVersion)) ∧
    ProcError.message (.unknownRequest f.header.apiKey f.header.apiVersion) =
      "unknown request: api key " ++ toString f.header.apiKey ++ ", version " ++
        toString f.header.apiVersion :=
  ⟨rfl, rfl⟩

/-- C4: a failed `onMessage` or `onFailedParse` call leaves all shared state
unchanged, and even a successful call never mutates the Dispatch Table or the
upstream-resolution state. -/
theorem failure_no_side_effects :
    (∀ (env : RequestEnvelope) (s : ProcessorState),
      (onMessage env s).1.table = s.table ∧ (onMessage env s).1.upstream = s.upstream) ∧
    (∀ (env : RequestEnvelope) (s : ProcessorState) (e : ProcError),
      (onMessage env s).2 = .error e → (onMessage env s).1 = s) ∧
    (∀ (f : RequestParseFailure) (s : ProcessorState), (onFailedParse f s).1 = s) := by
  refine ⟨?_, ?_, ?_⟩
  · intro env s
    cases hfind : findEntry s.table env.header.apiKey env.header.apiVersion with
    | some e => rw [onMessage_eq_found hfind]; exact ⟨rfl, rfl⟩
    | none => rw [onMessage_eq_notfound hfind]; exact ⟨rfl, rfl⟩
  · intro env s e herr
    cases hfind : findEntry s.table env.header.apiKey env.header.apiVersion with
    | some e2 =>
      rw [onMessage_eq_found hfind] at herr
      exact absurd herr (by simp)
    | none => rw [onMessage_eq_notfound hfind]
  · intro f s
    rfl

theorem failure_no_side_effects_witness :
    (onMessage envListOffset0 testState).2 =
      .error (.unsupportedRequest LIST_OFFSET_REQUEST_API_KEY) ∧
    (onMessage envListOffset0 testState).1 = testState :=
  ⟨rfl, failure_no_side_effects.2.1 envListOffset0 testState _ rfl⟩

theorem onMessage_ok_log {env : RequestEnvelope} {s : ProcessorState} {c : Command}
    (h : (onMessage env s).2 = .ok c) :
    (onMessage env s).1.listenerLog = s.listenerLog ++ [c] := by
  cases hfind : findEntry s.table env.header.apiKey env.header.apiVersion with
  | some e =>
    rw [onMessage_eq_found hfind] at h ⊢
    rw [← Except.ok.inj h]
  | none =>
    rw [onMessage_eq_notfound hfind] at h
    exact absurd h (by simp)

/-- C5: envelopes dispatched in order E1, E2, E3 on one connection put their
Commands on the Listener's notification log in exactly that order — strict FIFO
handoff with no reordering or batching. -/
theorem fifo_ordering (e1 e2 e3 : RequestEnvelope) (s : ProcessorState)
    (c1 c2 c3 : Command)
    (h1 : (onMessage e1 s).2 = .ok c1)
    (h2 : (onMessage e2 (onMessage e1 s).1).2 = .ok c2)
    (h3 : (onMessage e3 (onMessage e2 (onMessage e1 s).1).1).2 = .ok c3) :
    (onMessage e3 (onMessage e2 (onMessage e1 s).1).1).1.listenerLog =
      s.listenerLog ++ [c1, c2, c3] := by
  rw [onMessage_ok_log h3, onMessage_ok_log h2, onMessage_ok_log h1]
  simp

theorem fifo_ordering_witness :
    (onMessage envMetadata0 testState).2 = .ok (.metadataCmd envMetadata0.header none) ∧
    (onMessage envApiVersions0 (onMessage envMetadata0 testState).1).2 =
      .ok (.apiVersionsCmd envApiVersions0.header) ∧
    (onMessage envMetadata1
        (onMessage envApiVersions0 (onMessage envMetadata0 testState).1).1).2 =
      .ok (.metadataCmd envMetadata1.header (some ["t"])) ∧
    (onMessage envMetadata1
        (onMessage envApiVersions0 (onMessage envMetadata0 testState).1).1).1.listenerLog =
      [.metadataCmd envMetadata0.header none, .apiVersionsCmd envApiVersions0.header,
       .metadataCmd envMetadata1.header (some ["t"])] :=
  ⟨rfl, rfl, rfl, fifo_ordering envMetadata0 envApiVersions0 envMetadata1 testState
    _ _ _ rfl rfl rfl⟩

/-- C6: a metadata request containing a topic for which cluster resolution returns
nothing still drives the metadata Command to Answered with a complete response in
which that topic appears as an error-annotated entry; the unresolvable topic is
encoded in the answer, not raised as a processor-level failure. -/
theorem metadata_unresolvable_topic (table : List DispatchEntry) (cfg : UpstreamConfig)
    (hd : RequestHeader) (topics : List String) (t : String)
    (hmem : t ∈ topics) (hres : cfg.computeClusterConfigForTopic t = none) :
    (runCommand table cfg (.metadataCmd hd (some topics))).trace.getLast? =
      some .answered ∧
    (runCommand table cfg (.metadataCmd hd (some topics))).answer =
      .metadataAns (metadataAnswer cfg (some topics)) ∧
    ⟨t, true, none⟩ ∈ (metadataAnswer cfg (some topics)).topics := by
  refine ⟨rfl, rfl, ?_⟩
  have hentry : metadataTopicEntry cfg t = ⟨t, true, none⟩ := by
    rw [metadataTopicEntry, hres]
  exact hentry ▸ List.mem_map_of_mem (metadataTopicEntry cfg) hmem

theorem metadata_unresolvable_topic_witness :
    "t1" ∈ ["t1"] ∧
    testUpstreamConfig.computeClusterConfigForTopic "t1" = none ∧
    (runCommand dispatchTable testUpstreamConfig
        (.metadataCmd envMetadata0.header (some ["t1"]))).trace.getLast? =
      some .answered ∧
    (runCommand dispatchTable testUpstreamConfig
        (.metadataCmd envMetadata0.header (some ["t1"]))).answer =
      .metadataAns (metadataAnswer testUpstreamConfig (some ["t1"])) ∧
    ⟨"t1", true, none⟩ ∈ (metadataAnswer testUpstreamConfig (some ["t1"])).topics :=
  ⟨List.mem_singleton.mpr rfl, rfl,
    metadata_unresolvable_topic dispatchTable testUpstreamConfig envMetadata0.header
      ["t1"] "t1" (List.mem_singleton.mpr rfl) rfl⟩

/-- C7: a version-negotiation request with a supported version dispatches to a
Command that reaches Answered synchronously (trace Created then Answered, with no
Processing stage), consults Upstream Configuration for no topic, and answers with
exactly the Dispatch Table's supported identifiers and version ranges; the run is
identical under every upstream configuration. -/
theorem api_versions_sync (env : RequestEnvelope) (s : ProcessorState)
    (htable : s.table = dispatchTable)
    (hkey : env.header.apiKey = API_VERSIONS_REQUEST_API_KEY)
    (hver : 0 ≤ env.header.apiVersion ∧ env.header.apiVersion ≤ 3) :
    ∃ c : Command,
      (onMessage env s).2 = .ok c ∧
      c = .apiVersionsCmd env.header ∧
      ∀ cfg : UpstreamConfig,
        (runCommand s.table cfg c).trace = [.created, .answered] ∧
        (runCommand s.table cfg c).consultedTopics = [] ∧
        (runCommand s.table cfg c).answer =
          .apiVersionsAns (s.table.map fun e => ⟨e.apiKey, e.minVersion, e.maxVersion⟩) ∧
        ∀ cfg2 : UpstreamConfig, runCommand s.table cfg2 c = runCommand s.table cfg c := by
  have hfind : findEntry s.table env.header.apiKey env.header.apiVersion =
      some ⟨API_VERSIONS_REQUEST_API_KEY, 0, 3, .apiVersions⟩ := by
    rw [htable, findEntry_dispatchTable, hkey]
    rw [if_neg (by rintro ⟨hcontra, -⟩; exact absurd hcontra (by decide))]
    rw [if_pos ⟨rfl, hver⟩]
  refine ⟨buildCommand HandlerKind.apiVersions env, ?_, rfl, ?_⟩
  · rw [onMessage_eq_found hfind]
  · intro cfg
    exact ⟨rfl, rfl, rfl, fun cfg2 => rfl⟩

theorem api_versions_sync_witness :
    testState.table = dispatchTable ∧
    envApiVersions0.header.apiKey = API_VERSIONS_REQUEST_API_KEY ∧
    (0 ≤ envApiVersions0.header.apiVersion ∧ envApiVersions0.header.apiVersion ≤ 3) ∧
    ∃ c : Command,
      (onMessage envApiVersions0 testState).2 = .ok c ∧
      c = .apiVersionsCmd envApiVersions0.header ∧
      ∀ cfg : UpstreamConfig,
        (runCommand testState.table cfg c).trace = [.created, .answered] ∧
        (runCommand testState.table cfg c).consultedTopics = [] ∧
        (runCommand testState.table cfg c).answer =
          .apiVersionsAns
            (testState.table.map fun e => ⟨e.apiKey, e.minVersion, e.maxVersion⟩) ∧
        ∀ cfg2 : UpstreamConfig,
          runCommand testState.table cfg2 c = runCommand testState.table cfg c :=
  ⟨rfl, rfl, by decide,
    api_versions_sync envApiVersions0 testState rfl rfl (by decide)⟩

end Envoy.KafkaMesh
